import Mathlib

/- Verification of the kigit ownership-ledger core: a shallow embedding of
the Python modules `model/operations.py`, `model/errors.py`, `model/types.py`
and the error boundary of `cli.py`, together with theorems settling the
specified properties of the codec, the ownership state machine, the
permission enforcer and the scoped branch guard. -/

namespace Kigit

/-- Python strings are modelled as lists of characters. -/
abbrev PyStr := List Char

/-- One ledger record, as in `model/types.py`: `(branch, folders, owner)`. -/
abbrev Entry := PyStr × List PyStr × PyStr

/-- The error taxonomy of `model/errors.py`.  Every constructor except
`valueError` corresponds to a `ProgramError` subclass; `valueError` models
the untyped Python `ValueError` raised by tuple unpacking in `get_entries`
when a record does not have exactly three fields. -/
inductive Err where
  | unsaved
  | invalidRepository
  | unknownPlatform
  | invalidFolder
  | unspecifiedFolders
  | missingFolder
  | applyPermissions
  | alreadyOwned
  | duplicateRemoteBranch
  | duplicateLocalBranch
  | duplicateStatusBranch
  | missingBranch
  | unassociatedBranch
  | unownedBranch
  | protectedBranch
  | valueError
deriving DecidableEq

/-- Whether an error is a `ProgramError` subclass (`model/errors.py`): all of
the taxonomy is, but a raw `ValueError` is not and escapes the CLI handler. -/
def isProgramError : Err → Bool
  | Err.valueError => false
  | _ => true

/-- The `OwnershipType` enum of `model/types.py`. -/
inductive OwnershipType where
  | claimed
  | unclaimed
deriving DecidableEq

/-- The `Perm` enum of `model/types.py`.  The numeric mode bits selected by
`file_flags[platform]` are abstracted away: only the read-write / read-only
distinction is observable in this model. -/
inductive Perm where
  | read_write
  | read_only
deriving DecidableEq

/-- Observable side effects issued by the operations: git commands executed
through `Core` and the filesystem actions of the permission enforcer. -/
inductive Effect where
  | fetchRemoteBranches
  | fetchStatusFile
  | stashSave
  | stashPop
  | toBranch (b : PyStr)
  | pull
  | writeStatusFile (entries : List Entry)
  | addCommitPush (files : List PyStr)
  | createRemoteBranch (b : PyStr)
  | createOrphanBranch (b : PyStr)
  | writeEmptyStatusFile
  | addFiles (files : List PyStr)
  | commitChanges
  | pushUpstream (b : PyStr)
  | setFolderPerm (folder : PyStr) (p : Perm)
deriving DecidableEq

/-- The environment an invocation runs against: the configuration held by
`Core`, the repository state, and the working tree listing used by
`os.scandir`. -/
structure GitEnv where
  statusBranch : PyStr
  statusFile : PyStr
  userName : PyStr
  workingBranch : PyStr
  remoteBranches : List PyStr
  localBranches : List PyStr
  statusContent : PyStr
  cwdEntries : List (PyStr × Bool)
  stashed : Bool

/-- The `SaveBranch` context manager (`operations.py` lines 21-37).  On entry
it records the current branch and stashes; on exit — reached on both the
normal and the exceptional path, per Python `with` semantics, and with the
exception re-raised afterwards since `__exit__` returns `None` — it checks
out the recorded branch and pops the stash exactly when something was
stashed. -/
def saveBranchScope {α : Type} (env : GitEnv) (body : List Effect × Except Err α) :
    List Effect × Except Err α :=
  (Effect.stashSave :: body.1 ++
      Effect.toBranch env.workingBranch ::
        (if env.stashed then [Effect.stashPop] else []),
   body.2)

/-- The shared helper `check_ownership` (`operations.py` lines 134-145). -/
def check_ownership (user_email owner : PyStr) (ownership_type : OwnershipType) :
    Except Err Unit :=
  match ownership_type with
  | OwnershipType.unclaimed =>
    if owner = user_email then Except.error Err.alreadyOwned
    else if owner ≠ [] then Except.error Err.protectedBranch
    else Except.ok ()
  | OwnershipType.claimed =>
    if owner = [] then Except.error Err.unownedBranch
    else if owner ≠ user_email then Except.error Err.protectedBranch
    else Except.ok ()

/-- The bootstrap `create_status_branch` (`operations.py` lines 40-54).  Note
that the source checks the literal branch name `"status"` against the local
branch list, while every other line uses the configured `core.status_branch`. -/
def create_status_branch (env : GitEnv) : List Effect × Except Err Unit :=
  if ['s', 't', 'a', 't', 'u', 's'] ∈ env.localBranches then
    ([], Except.error Err.duplicateStatusBranch)
  else
    saveBranchScope env
      ([Effect.createOrphanBranch env.statusBranch,
        Effect.writeEmptyStatusFile,
        Effect.addFiles [env.statusFile],
        Effect.commitChanges,
        Effect.pushUpstream env.statusBranch],
       Except.ok ())

/-- Helper for `splitOnChar`: processes the string from the left and returns
the first field together with the remaining fields. -/
def splitOnCharAux (c : Char) : List Char → List Char × List (List Char)
  | [] => ([], [])
  | x :: xs =>
    let r := splitOnCharAux c xs
    if x = c then ([], r.1 :: r.2) else (x :: r.1, r.2)

/-- Python `str.split` with a single-character separator: always returns at
least one field, and `""` splits to `[""]`. -/
def splitOnChar (c : Char) (s : List Char) : List (List Char) :=
  (splitOnCharAux c s).1 :: (splitOnCharAux c s).2

/-- Python `sep.join` for a single-character separator. -/
def joinParts (c : Char) : List (List Char) → List Char
  | [] => []
  | [p] => p
  | p :: q :: ps => p ++ c :: joinParts c (q :: ps)

/-- Python `str.strip` with a single stripped character: removes every copy of
`c` from both ends of the string. -/
def pyStrip (c : Char) (s : List Char) : List Char :=
  (((s.dropWhile (fun x => x == c)).reverse.dropWhile (fun x => x == c)).reverse)

/-- One serialized ledger record without its terminating newline, as written
by `save_entries` (`operations.py` line 157). -/
def encodeRecord (e : Entry) : PyStr :=
  e.1 ++ ';' :: joinParts ',' e.2.1 ++ ';' :: e.2.2

/-- One full line written by `save_entries` for an entry. -/
def encodeEntry (e : Entry) : PyStr :=
  encodeRecord e ++ ['\n']

/-- The serialized status file produced by `save_entries`
(`operations.py` lines 148-159): one newline-terminated record per entry. -/
def encodeEntries (entries : List Entry) : PyStr :=
  (entries.map encodeEntry).flatten

/-- The parsing half of the loop body in `get_entries` (`operations.py` lines
69-73): split a record on `;`, requiring exactly three fields — the Python
tuple unpacking raises `ValueError` otherwise — then split the folder field
on `,`. -/
def parse_record (r : PyStr) : Except Err Entry :=
  match splitOnChar ';' r with
  | [branch, folderstr, owner] => Except.ok (branch, splitOnChar ',' folderstr, owner)
  | _ => Except.error Err.valueError

/-- The record loop of `get_entries` (`operations.py` lines 68-75):
parse each record in order and keep those whose branch is a remote branch. -/
def decodeLoop (remote_branches : List PyStr) (acc : List Entry) :
    List PyStr → Except Err (List Entry)
  | [] => Except.ok acc
  | r :: rs =>
    match splitOnChar ';' r with
    | [branch, folderstr, owner] =>
      decodeLoop remote_branches
        (acc ++ (if branch ∈ remote_branches
                 then [(branch, splitOnChar ',' folderstr, owner)] else []))
        rs
    | _ => Except.error Err.valueError

/-- The pure decoding part of `get_entries` (`operations.py` lines 62-75):
strip newlines from both ends of the status file content, return the empty
ledger for empty content, otherwise split into records and run the loop. -/
def decodeEntries (remote_branches : List PyStr) (statusContent : PyStr) :
    Except Err (List Entry) :=
  let status_str := pyStrip '\n' statusContent
  if status_str = [] then Except.ok []
  else decodeLoop remote_branches [] (splitOnChar '\n' status_str)

/-- Sequential parse of every record with no remote filtering; used to state
that `get_entries` keeps exactly the records whose branch is remote. -/
def parse_records : List PyStr → Except Err (List Entry)
  | [] => Except.ok []
  | r :: rs =>
    match parse_record r, parse_records rs with
    | Except.ok e, Except.ok es => Except.ok (e :: es)
    | Except.error err, _ => Except.error err
    | _, Except.error err => Except.error err

/-- The `get_entries` function (`operations.py` lines 57-75) including its
bootstrap call: if the configured status branch is not a remote branch, run
`create_status_branch` first — in that case the file just pushed is empty. -/
def get_entries (env : GitEnv) (remote_branches : List PyStr) :
    List Effect × Except Err (List Entry) :=
  if env.statusBranch ∈ remote_branches then
    ([Effect.fetchStatusFile], decodeEntries remote_branches env.statusContent)
  else
    match create_status_branch env with
    | (effs, Except.error e) => (effs, Except.error e)
    | (effs, Except.ok _) =>
      (effs ++ [Effect.fetchStatusFile], decodeEntries remote_branches [])

/-- The effect sequence of `save_entries` (`operations.py` lines 148-159):
switch to the status branch, pull, overwrite the status file with the
encoded ledger, then add+commit+push. -/
def save_entries_effects (env : GitEnv) (entries : List Entry) : List Effect :=
  [Effect.toBranch env.statusBranch, Effect.pull,
   Effect.writeStatusFile entries, Effect.addCommitPush [env.statusFile]]

/-- The `branch_status` operation (`operations.py` lines 257-259). -/
def branch_status (env : GitEnv) : List Effect × Except Err (List Entry) :=
  match get_entries env env.remoteBranches with
  | (effs, r) => (Effect.fetchRemoteBranches :: effs, r)

/-- The folder-name validation of `create_branch` (`operations.py` lines
172-180): a folder is rejected when it equals `.` or contains `/`, `\`,
`,` or `;`. -/
def invalid_folder (folder : PyStr) : Bool :=
  folder == ['.'] || folder.contains '/' || folder.contains '\\' ||
    folder.contains ',' || folder.contains ';'

/-- Python `list.remove`: drop the first element equal to the argument.  In
`get_filtered_entries` the removed entry is known to be present, so the
missing-element `ValueError` branch is unreachable and modelled as a no-op. -/
def list_remove (entries : List Entry) (e : Entry) : List Entry :=
  match entries with
  | [] => []
  | x :: xs => if x = e then xs else x :: list_remove xs e

/-- The ledger-level part of `get_filtered_entries` (`operations.py` lines
117-131), applied to an already-fetched remote branch list and decoded
ledger: reject a branch absent from the remote list, find its entry, and
return the ledger with that entry removed together with the entry. -/
def get_filtered_entriesL (entries : List Entry) (remote_branches : List PyStr)
    (branch : PyStr) : Except Err (List Entry × Entry) :=
  if branch ∈ remote_branches then
    match entries.find? (fun e => decide (e.1 = branch)) with
    | some branch_entry => Except.ok (list_remove entries branch_entry, branch_entry)
    | none => Except.error Err.unassociatedBranch
  else Except.error Err.missingBranch

/-- The ledger transformation of `checkin_branch` (`operations.py` lines
206-221): filter out the entry, demand claimed ownership, and re-append the
entry with an empty owner. -/
def checkin_ledger (user_email : PyStr) (remote_branches : List PyStr)
    (entries : List Entry) (branch : PyStr) : Except Err (List Entry) :=
  match get_filtered_entriesL entries remote_branches branch with
  | Except.error e => Except.error e
  | Except.ok (es, branch_entry) =>
    match check_ownership user_email branch_entry.2.2 OwnershipType.claimed with
    | Except.error e => Except.error e
    | Except.ok _ => Except.ok (es ++ [(branch, branch_entry.2.1, [])])

/-- The ledger transformation of `checkout_branch` (`operations.py` lines
224-239): filter out the entry, demand that it is unclaimed, and re-append
the entry owned by the acting identity. -/
def checkout_ledger (user_email : PyStr) (remote_branches : List PyStr)
    (entries : List Entry) (branch : PyStr) : Except Err (List Entry) :=
  match get_filtered_entriesL entries remote_branches branch with
  | Except.error e => Except.error e
  | Except.ok (es, branch_entry) =>
    match check_ownership user_email branch_entry.2.2 OwnershipType.unclaimed with
    | Except.error e => Except.error e
    | Except.ok _ => Except.ok (es ++ [(branch, branch_entry.2.1, user_email)])

/-- One `os.scandir` iteration of `update_perms_using_entries`
(`operations.py` lines 104-110): skip dot-entries and non-directories; a
directory gets read-write and bumps the counter when the owner check passed
and its name is a claimed folder, read-only otherwise. -/
def perm_scan_step (checked : Bool) (free_folders : List PyStr)
    (acc : List Effect × Nat) (d : PyStr × Bool) : List Effect × Nat :=
  if !(decide (d.1.head? = some '.')) && d.2 then
    if checked && decide (d.1 ∈ free_folders) then
      (acc.1 ++ [Effect.setFolderPerm d.1 Perm.read_write], acc.2 + 1)
    else
      (acc.1 ++ [Effect.setFolderPerm d.1 Perm.read_only], acc.2)
  else acc

/-- The permission enforcer `update_perms_using_entries` (`operations.py`
lines 88-114): no-op when the active branch has no entry; otherwise walk the
top-level directories applying modes, and raise `ApplyPermissions` when the
acting user owns the entry but the matched-folder count differs from the
length of the entry's folder list. -/
def update_perms_using_entries (user_email : PyStr) (entries : List Entry)
    (branch : PyStr) (cwd : List (PyStr × Bool)) :
    List Effect × Except Err Unit :=
  match entries.find? (fun e => decide (e.1 = branch)) with
  | none => ([], Except.ok ())
  | some e =>
    let free_folders := e.2.1
    let checked := decide (e.2.2 = user_email)
    let scan := cwd.foldl (perm_scan_step checked free_folders) ([], 0)
    if checked && decide (scan.2 ≠ free_folders.length) then
      (scan.1, Except.error Err.applyPermissions)
    else (scan.1, Except.ok ())

/-- The `create_branch` operation (`operations.py` lines 167-203): validate
the folder list, fetch remote branches and the ledger, reject duplicate
remote then local branch names, append the new unclaimed entry, write the
ledger and create the branch under a `SaveBranch` guard, and finally
reconcile permissions for the (restored) working branch. -/
def create_branch (env : GitEnv) (branch : PyStr) (folders : List PyStr) :
    List Effect × Except Err Unit :=
  if folders.length = 0 then ([], Except.error Err.unspecifiedFolders)
  else if folders.any invalid_folder then ([], Except.error Err.invalidFolder)
  else
    match get_entries env env.remoteBranches with
    | (effs, Except.error e) => (Effect.fetchRemoteBranches :: effs, Except.error e)
    | (effs, Except.ok entries) =>
      let pre := Effect.fetchRemoteBranches :: effs
      if branch ∈ env.remoteBranches then (pre, Except.error Err.duplicateRemoteBranch)
      else if branch ∈ env.localBranches then (pre, Except.error Err.duplicateLocalBranch)
      else
        let entries2 := entries ++ [(branch, folders, [])]
        let guarded := saveBranchScope env
          (save_entries_effects env entries2 ++
             [Effect.toBranch ['m', 'a', 'i', 'n'], Effect.pull,
              Effect.createRemoteBranch branch],
           Except.ok ())
        let perms := update_perms_using_entries env.userName entries2
          env.workingBranch env.cwdEntries
        (pre ++ guarded.1 ++ perms.1, perms.2)

/-- The `checkin_branch` operation (`operations.py` lines 206-221). -/
def checkin_branch (env : GitEnv) (branch : PyStr) : List Effect × Except Err Unit :=
  match get_entries env env.remoteBranches with
  | (effs, Except.error e) => (Effect.fetchRemoteBranches :: effs, Except.error e)
  | (effs, Except.ok entries) =>
    let pre := Effect.fetchRemoteBranches :: effs
    match checkin_ledger env.userName env.remoteBranches entries branch with
    | Except.error e => (pre, Except.error e)
    | Except.ok entries2 =>
      let guarded := saveBranchScope env (save_entries_effects env entries2, Except.ok ())
      let perms := update_perms_using_entries env.userName entries2
        env.workingBranch env.cwdEntries
      (pre ++ guarded.1 ++ perms.1, perms.2)

/-- The `checkout_branch` operation (`operations.py` lines 224-239). -/
def checkout_branch (env : GitEnv) (branch : PyStr) : List Effect × Except Err Unit :=
  match get_entries env env.remoteBranches with
  | (effs, Except.error e) => (Effect.fetchRemoteBranches :: effs, Except.error e)
  | (effs, Except.ok entries) =>
    let pre := Effect.fetchRemoteBranches :: effs
    match checkout_ledger env.userName env.remoteBranches entries branch with
    | Except.error e => (pre, Except.error e)
    | Except.ok entries2 =>
      let guarded := saveBranchScope env (save_entries_effects env entries2, Except.ok ())
      let perms := update_perms_using_entries env.userName entries2
        env.workingBranch env.cwdEntries
      (pre ++ guarded.1 ++ perms.1, perms.2)

/-- The CLI error boundary `run_operation_log_result` (`cli.py` lines 69-82):
a `ProgramError` is converted to a one-line message plus `sys.exit(1)`;
any other exception escapes the handler uncaught. -/
inductive Outcome (α : Type) where
  | success (a : α)
  | errorExit
  | uncaughtException
deriving DecidableEq

/-- Outcome of running an operation under the CLI boundary of `cli.py`. -/
def run_operation_log_result {α : Type} (r : Except Err α) : Outcome α :=
  match r with
  | Except.ok a => Outcome.success a
  | Except.error e =>
    if isProgramError e then Outcome.errorExit else Outcome.uncaughtException

/-- Concrete environment exhibiting the bootstrap bug: the configured status
branch is named `work` and a local branch `work` already exists. -/
def bugEnv : GitEnv :=
  { statusBranch := ['w', 'o', 'r', 'k'],
    statusFile := ['f'],
    userName := ['u'],
    workingBranch := ['m', 'a', 'i', 'n'],
    remoteBranches := [],
    localBranches := [['w', 'o', 'r', 'k'], ['m', 'a', 'i', 'n']],
    statusContent := [],
    cwdEntries := [],
    stashed := false }

/-- Concrete clean environment: empty remote ledger hosted on remote status
branch `st`, no local branches, empty working tree. -/
def dupEnv : GitEnv :=
  { statusBranch := ['s', 't'],
    statusFile := ['f'],
    userName := ['u'],
    workingBranch := ['m', 'a', 'i', 'n'],
    remoteBranches := [['s', 't']],
    localBranches := [],
    statusContent := [],
    cwdEntries := [],
    stashed := false }

/- ============================= Theorems ============================= -/

/-- C1 (counterexample): with the empty identity and an empty owner,
`check_ownership` with `want = Unclaimed` raises `AlreadyOwned` — the owner
equals the identity — whereas the claim, which quantifies over every
identity, demands success whenever the owner is empty. -/
theorem check_ownership_empty_identity_cex :
    check_ownership [] [] OwnershipType.unclaimed = Except.error Err.alreadyOwned ∧
      Except.error Err.alreadyOwned ≠ (Except.ok () : Except Err Unit) := by
  refine ⟨rfl, ?_⟩
  intro h
  exact Except.noConfusion h

/-- C1 (amended): for every non-empty identity, owner string, and want mode,
`check_ownership` raises exactly as specified: with `want = Unclaimed` it
fails with `AlreadyOwned` when the owner equals the identity, fails with
`Protected` when the owner is a different non-empty string, and succeeds
when the owner is empty; with `want = Claimed` it fails with `Unowned` when
the owner is empty, fails with `Protected` when the owner is non-empty and
differs from the identity, and succeeds when the owner equals the
identity. -/
theorem check_ownership_cases (user_email owner : PyStr) (hid : user_email ≠ []) :
    (owner = user_email →
        check_ownership user_email owner OwnershipType.unclaimed
          = Except.error Err.alreadyOwned) ∧
      (owner ≠ user_email → owner ≠ [] →
        check_ownership user_email owner OwnershipType.unclaimed
          = Except.error Err.protectedBranch) ∧
      (owner = [] →
        check_ownership user_email owner OwnershipType.unclaimed
          = Except.ok ()) ∧
      (owner = [] →
        check_ownership user_email owner OwnershipType.claimed
          = Except.error Err.unownedBranch) ∧
      (owner ≠ [] → owner ≠ user_email →
        check_ownership user_email owner OwnershipType.claimed
          = Except.error Err.protectedBranch) ∧
      (owner = user_email →
        check_ownership user_email owner OwnershipType.claimed
          = Except.ok ()) := by
  refine ⟨?_, ?_, ?_, ?_, ?_, ?_⟩
  · intro h; simp [check_ownership, h]
  · intro h1 h2; simp [check_ownership, h1, h2]
  · intro h; subst h; simp [check_ownership, Ne.symm hid]
  · intro h; simp [check_ownership, h]
  · intro h1 h2; simp [check_ownership, h1, h2]
  · intro h; subst h
    simp [check_ownership, hid]

/-- C1 (witness): the amended theorem applied at identity `"u"`, owner `""`,
`want = Unclaimed`. -/
theorem check_ownership_cases_witness :
    (['u'] : PyStr) ≠ [] ∧
      check_ownership ['u'] [] OwnershipType.unclaimed = Except.ok () :=
  ⟨by decide, (check_ownership_cases ['u'] [] (by decide)).2.2.1 rfl⟩

/-- C5 (code evaluated at the failing input): with the configured status
branch named `work` and a local branch `work` already present, the bootstrap
does not raise `DuplicateStatus` — the source compares the literal string
`"status"` against the local branch list — and instead proceeds to create
and push the orphan branch, contradicting the claim (and the spec, which
keys the check on the configured status-branch name). -/
theorem create_status_branch_ignores_configured_name :
    bugEnv.statusBranch ∈ bugEnv.localBranches ∧
      (create_status_branch bugEnv).2 = Except.ok () ∧
      Effect.createOrphanBranch ['w', 'o', 'r', 'k'] ∈ (create_status_branch bugEnv).1 ∧
      Effect.pushUpstream ['w', 'o', 'r', 'k'] ∈ (create_status_branch bugEnv).1 := by
  exact ⟨by decide, rfl, by decide, by decide⟩

/-- C6: the scoped branch guard (`SaveBranch` used as a `with` context):
whatever the wrapped body did and whether it succeeded or raised, the trace
continues — after the body's own effects — with a checkout of the branch
recorded on entry followed by a stash pop exactly when the entry-time stash
reported that something was stashed, and the body's result (including a
raised error) passes through unaltered. -/
theorem saveBranchScope_restores {α : Type} (env : GitEnv) (effs : List Effect)
    (r : Except Err α) :
    (saveBranchScope env (effs, r)).1
        = Effect.stashSave :: effs ++
            Effect.toBranch env.workingBranch ::
              (if env.stashed then [Effect.stashPop] else []) ∧
      (saveBranchScope env (effs, r)).2 = r :=
  ⟨rfl, rfl⟩

/-- C3 (counterexample): the claim constrains only branch and folder names,
but two ledgers it covers defeat the round trip.  First, an entry with an
empty folder list: `"".join` of no folders writes an empty field, which
decodes to the singleton list containing the empty folder name.  Second, an
owner containing `;`: its record serializes to four `;`-fields and decoding
fails outright.  In both ledgers the branch names avoid all delimiter
characters and the branches are remote, so the claim as stated applies. -/
theorem decode_encode_empty_folders_cex :
    (decodeEntries [['b']] (encodeEntries [(['b'], [], [])])
        = Except.ok [(['b'], [[]], [])] ∧
      ([(['b'], [[]], [])] : List Entry) ≠ [(['b'], [], [])]) ∧
      decodeEntries [['b']] (encodeEntries [(['b'], [['a']], ['x', ';', 'y'])])
        = Except.error Err.valueError := by
  exact ⟨⟨rfl, by decide⟩, rfl⟩

/-- C9 (counterexample): a status file consisting of the single malformed
record `bad` makes decoding fail with the Python `ValueError` from tuple
unpacking, and that failure is not a `ProgramError`: the CLI boundary lets
it escape as an uncaught exception instead of converting it to a one-line
message with a non-zero exit. -/
theorem malformed_record_untyped_cex :
    decodeEntries [['b']] ['b', 'a', 'd'] = Except.error Err.valueError ∧
      run_operation_log_result (decodeEntries [['b']] ['b', 'a', 'd'])
        = Outcome.uncaughtException ∧
      (Outcome.uncaughtException : Outcome (List Entry)) ≠ Outcome.errorExit := by
  refine ⟨rfl, rfl, ?_⟩
  intro h
  exact Outcome.noConfusion h

/-- C10: `create_branch` performs no duplicate-folder check: with the folder
list `["a", "a"]` all validation passes, the operation succeeds, and the
ledger written to the status branch carries the entry with the repeated
folder name intact. -/
theorem create_branch_duplicate_folders :
    (create_branch dupEnv ['b'] [['a'], ['a']]).2 = Except.ok () ∧
      Effect.writeStatusFile [(['b'], [['a'], ['a']], [])]
        ∈ (create_branch dupEnv ['b'] [['a'], ['a']]).1 := by
  exact ⟨rfl, by decide⟩

/-- The directory walk of the permission enforcer, re-expressed: effects are
a map over the scanned (non-dot, directory) entries and the counter counts
the matched claimed folders. -/
theorem foldl_perm_scan (checked : Bool) (free_folders : List PyStr) :
    ∀ (cwd : List (PyStr × Bool)) (accE : List Effect) (accN : Nat),
      cwd.foldl (perm_scan_step checked free_folders) (accE, accN)
        = (accE ++ (cwd.filter (fun d => !(decide (d.1.head? = some '.')) && d.2)).map
              (fun d => Effect.setFolderPerm d.1
                (if checked && decide (d.1 ∈ free_folders) then Perm.read_write
                 else Perm.read_only)),
           accN + (cwd.filter (fun d => !(decide (d.1.head? = some '.')) && d.2)).countP
              (fun d => checked && decide (d.1 ∈ free_folders))) := by
  intro cwd
  induction cwd with
  | nil => intro accE accN; simp
  | cons d rest ih =>
    intro accE accN
    by_cases hc : (!(decide (d.1.head? = some '.')) && d.2) = true
    · by_cases hm : (checked && decide (d.1 ∈ free_folders)) = true
      · have hstep : perm_scan_step checked free_folders (accE, accN) d
            = (accE ++ [Effect.setFolderPerm d.1 Perm.read_write], accN + 1) := by
          simp [perm_scan_step, hc, hm]
        rw [List.foldl_cons, hstep, ih]
        simp only [List.filter_cons, hc, if_true, List.map_cons, List.countP_cons,
          Prod.mk.injEq]
        refine ⟨by simp [hm, List.append_assoc], by simp [hm]; omega⟩
      · have hstep : perm_scan_step checked free_folders (accE, accN) d
            = (accE ++ [Effect.setFolderPerm d.1 Perm.read_only], accN) := by
          simp [perm_scan_step, hc, hm]
        rw [List.foldl_cons, hstep, ih]
        simp only [List.filter_cons, hc, if_true, List.map_cons, List.countP_cons,
          Prod.mk.injEq]
        refine ⟨by simp [hm, List.append_assoc], by simp [hm]⟩
    · have hcf : (!(decide (d.1.head? = some '.')) && d.2) = false := by
        simpa using hc
      have hstep : perm_scan_step checked free_folders (accE, accN) d
          = (accE, accN) := by
        simp [perm_scan_step, hcf]
      rw [List.foldl_cons, hstep, ih]
      simp [List.filter_cons, hcf]

/-- C7: permission reconciliation for an active branch with no ledger entry
changes nothing; when an entry exists, files under each non-dot top-level
directory are set read-write exactly when the entry's owner equals the
acting identity and the directory name is in the entry's folder list, and
read-only otherwise; and `ApplyPermissions` is raised if and only if the
owner equals the identity and the number of matched folders differs from
the length of the entry's folder list — a non-owner's absent folders never
raise. -/
theorem update_perms_spec (user_email : PyStr) (entries : List Entry)
    (branch : PyStr) (cwd : List (PyStr × Bool)) :
    (entries.find? (fun e => decide (e.1 = branch)) = none →
        update_perms_using_entries user_email entries branch cwd
          = ([], Except.ok ())) ∧
      (∀ e0, entries.find? (fun e => decide (e.1 = branch)) = some e0 →
        (update_perms_using_entries user_email entries branch cwd).1
            = (cwd.filter (fun d => !(decide (d.1.head? = some '.')) && d.2)).map
                (fun d => Effect.setFolderPerm d.1
                  (if e0.2.2 = user_email ∧ d.1 ∈ e0.2.1 then Perm.read_write
                   else Perm.read_only)) ∧
          ((update_perms_using_entries user_email entries branch cwd).2
              = Except.error Err.applyPermissions ↔
            (e0.2.2 = user_email ∧
              (cwd.filter (fun d => !(decide (d.1.head? = some '.')) && d.2)).countP
                  (fun d => decide (d.1 ∈ e0.2.1)) ≠ e0.2.1.length))) := by
  constructor
  · intro h
    simp [update_perms_using_entries, h]
  · intro e0 h
    constructor
    · simp only [update_perms_using_entries, h, foldl_perm_scan, List.nil_append,
        Nat.zero_add]
      split
      · apply List.map_congr_left
        intro d _
        by_cases hch : e0.2.2 = user_email
        · by_cases hmem : d.1 ∈ e0.2.1
          · simp [hch, hmem]
          · simp [hch, hmem]
        · simp [hch]
      · apply List.map_congr_left
        intro d _
        by_cases hch : e0.2.2 = user_email
        · by_cases hmem : d.1 ∈ e0.2.1
          · simp [hch, hmem]
          · simp [hch, hmem]
        · simp [hch]
    · simp only [update_perms_using_entries, h, foldl_perm_scan, List.nil_append,
        Nat.zero_add]
      by_cases hch : e0.2.2 = user_email
      · have hcnt :
            (cwd.filter (fun d => !(decide (d.1.head? = some '.')) && d.2)).countP
                (fun d => decide (e0.2.2 = user_email) && decide (d.1 ∈ e0.2.1))
              = (cwd.filter (fun d => !(decide (d.1.head? = some '.')) && d.2)).countP
                (fun d => decide (d.1 ∈ e0.2.1)) := by
          apply List.countP_congr
          intro d _
          simp [hch]
        rw [hcnt]
        by_cases hlen :
            (cwd.filter (fun d => !(decide (d.1.head? = some '.')) && d.2)).countP
              (fun d => decide (d.1 ∈ e0.2.1)) = e0.2.1.length
        · simp [hch, hlen]
        · simp [hch, hlen]
      · simp [hch]

/-- C7 (witness): the theorem applied to a concrete ledger and working tree:
the owner's claimed folder `a` becomes read-write, the unclaimed folder `c`
read-only, the dot-entry and plain file are skipped, and no error is
raised. -/
theorem update_perms_spec_witness :
    ([(['b'], [['a']], ['u'])] : List Entry).find?
        (fun e => decide (e.1 = ['b'])) = some (['b'], [['a']], ['u']) ∧
      (update_perms_using_entries ['u'] [(['b'], [['a']], ['u'])] ['b']
          [(['a'], true), (['.', 'g'], true), (['x'], false), (['c'], true)]).1
        = [Effect.setFolderPerm ['a'] Perm.read_write,
           Effect.setFolderPerm ['c'] Perm.read_only] := by
  refine ⟨by decide, ?_⟩
  have h := (update_perms_spec ['u'] [(['b'], [['a']], ['u'])] ['b']
      [(['a'], true), (['.', 'g'], true), (['x'], false), (['c'], true)]).2
      (['b'], [['a']], ['u']) (by decide)
  rw [h.1]
  decide

/-- A successful `find?` splits the list at the first match, with the
predicate false on everything before it. -/
theorem find?_split {α : Type} (p : α → Bool) :
    ∀ (l : List α) (a : α), l.find? p = some a →
      ∃ l1 l2, l = l1 ++ a :: l2 ∧ ∀ x ∈ l1, p x = false := by
  intro l
  induction l with
  | nil => intro a h; exact absurd h (by simp)
  | cons x xs ih =>
    intro a h
    by_cases hp : p x = true
    · rw [List.find?_cons_of_pos _ hp] at h
      obtain rfl := Option.some.inj h
      exact ⟨[], xs, by simp, by simp⟩
    · rw [List.find?_cons_of_neg _ hp] at h
      obtain ⟨l1, l2, rfl, hl1⟩ := ih a h
      refine ⟨x :: l1, l2, rfl, ?_⟩
      intro y hy
      rcases List.mem_cons.mp hy with rfl | hy'
      · simpa using hp
      · exact hl1 y hy'

/-- Python `list.remove` of an element sitting after a prefix that does not
contain it drops exactly that occurrence. -/
theorem list_remove_middle :
    ∀ (l1 l2 : List Entry) (a : Entry), a ∉ l1 →
      list_remove (l1 ++ a :: l2) a = l1 ++ l2 := by
  intro l1
  induction l1 with
  | nil => intro l2 a _; simp [list_remove]
  | cons x xs ih =>
    intro l2 a ha
    have hxa : ¬(x = a) := fun hx => ha (by simp [hx])
    rw [List.cons_append]
    show (if x = a then xs ++ a :: l2 else x :: list_remove (xs ++ a :: l2) a)
        = x :: (xs ++ l2)
    rw [if_neg hxa, ih l2 a (fun h => ha (List.mem_cons_of_mem _ h))]

/-- Searching past a prefix on which the predicate is false. -/
theorem find?_append_false {α : Type} (p : α → Bool) :
    ∀ (l1 l2 : List α), (∀ x ∈ l1, p x = false) →
      (l1 ++ l2).find? p = l2.find? p := by
  intro l1
  induction l1 with
  | nil => intro l2 _; simp
  | cons x xs ih =>
    intro l2 h
    rw [List.cons_append, List.find?_cons_of_neg _ (by simp [h x (by simp)]), ih]
    intro y hy
    exact h y (List.mem_cons_of_mem _ hy)

/-- Removing the (unique, by branch-name nodup) entry of a branch and
re-appending it with a new owner: the re-read entry carries the new owner
and the old folder list, and the entries of every other branch are
untouched. -/
theorem ledger_reappend_frame (entries : List Entry) (branch : PyStr)
    (be : Entry) (newOwner : PyStr)
    (hnd : (entries.map (fun e => e.1)).Nodup)
    (hf : entries.find? (fun e => decide (e.1 = branch)) = some be) :
    be.1 = branch ∧
      (list_remove entries be ++ [(branch, be.2.1, newOwner)]).find?
          (fun e => decide (e.1 = branch)) = some (branch, be.2.1, newOwner) ∧
      (list_remove entries be ++ [(branch, be.2.1, newOwner)]).filter
          (fun e => !(decide (e.1 = branch)))
        = entries.filter (fun e => !(decide (e.1 = branch))) := by
  have hbe : be.1 = branch := by
    have := List.find?_some hf
    simpa using this
  obtain ⟨l1, l2, heq, hl1⟩ := find?_split _ entries be hf
  subst heq
  have hbe_not_l1 : be ∉ l1 := by
    intro hmem
    have := hl1 be hmem
    simp [hbe] at this
  rw [list_remove_middle l1 l2 be hbe_not_l1]
  have hl2 : ∀ x ∈ l2, (decide (x.1 = branch) : Bool) = false := by
    intro x hx
    have hmap : ((l1 ++ be :: l2).map (fun e => e.1)).Nodup := hnd
    rw [List.map_append, List.map_cons] at hmap
    have h2 : (be.1 :: l2.map (fun e => e.1)).Nodup := hmap.of_append_right
    have hnot : be.1 ∉ l2.map (fun e => e.1) := (List.nodup_cons.mp h2).1
    have hx1 : x.1 ≠ branch := by
      intro hcontra
      apply hnot
      rw [hbe, ← hcontra]
      exact List.mem_map_of_mem (fun e => e.1) hx
    simpa using hx1
  refine ⟨hbe, ?_, ?_⟩
  · rw [List.append_assoc, find?_append_false _ l1 _ hl1,
      find?_append_false _ l2 _ hl2]
    simp
  · rw [List.append_assoc, List.filter_append, List.filter_append,
      List.filter_append, List.filter_cons]
    simp [hbe]

/-- A successful `get_filtered_entries` (at ledger level) found the entry by
`find?` and removed exactly it. -/
theorem get_filtered_entriesL_ok (entries : List Entry) (remote_branches : List PyStr)
    (branch : PyStr) (es : List Entry) (be : Entry)
    (h : get_filtered_entriesL entries remote_branches branch = Except.ok (es, be)) :
    entries.find? (fun e => decide (e.1 = branch)) = some be ∧
      es = list_remove entries be := by
  simp only [get_filtered_entriesL] at h
  by_cases hbr : branch ∈ remote_branches
  · rw [if_pos hbr] at h
    cases hf : entries.find? (fun e => decide (e.1 = branch)) with
    | none => rw [hf] at h; exact absurd h (by simp)
    | some be0 =>
      rw [hf] at h
      simp only [Except.ok.injEq, Prod.mk.injEq] at h
      obtain ⟨h1, h2⟩ := h
      constructor
      · rw [h2]
      · rw [← h1, h2]
  · rw [if_neg hbr] at h
    exact absurd h (by simp)

/-- C2: for every ledger with branch-unique entries containing an entry for
a given remote branch, a successful `checkout` produces a ledger whose entry
for the branch has the acting identity as owner, and a successful `checkin`
produces one whose entry has the empty owner; in both cases the branch name
and folder list of that entry are unchanged and the entries of every other
branch are unchanged. -/
theorem checkout_checkin_ledger_frame (user_email : PyStr)
    (remote_branches : List PyStr) (entries : List Entry) (branch : PyStr)
    (hnd : (entries.map (fun e => e.1)).Nodup) :
    (∀ res, checkout_ledger user_email remote_branches entries branch = Except.ok res →
      ∃ fs ow, entries.find? (fun e => decide (e.1 = branch)) = some (branch, fs, ow) ∧
        res.find? (fun e => decide (e.1 = branch)) = some (branch, fs, user_email) ∧
        res.filter (fun e => !(decide (e.1 = branch)))
          = entries.filter (fun e => !(decide (e.1 = branch)))) ∧
      (∀ res, checkin_ledger user_email remote_branches entries branch = Except.ok res →
        ∃ fs ow, entries.find? (fun e => decide (e.1 = branch)) = some (branch, fs, ow) ∧
          res.find? (fun e => decide (e.1 = branch)) = some (branch, fs, ([] : PyStr)) ∧
          res.filter (fun e => !(decide (e.1 = branch)))
            = entries.filter (fun e => !(decide (e.1 = branch)))) := by
  constructor
  · intro res hok
    simp only [checkout_ledger] at hok
    cases hg : get_filtered_entriesL entries remote_branches branch with
    | error e => rw [hg] at hok; exact absurd hok (by simp)
    | ok p =>
      obtain ⟨es, be⟩ := p
      rw [hg] at hok
      dsimp only at hok
      cases hco : check_ownership user_email be.2.2 OwnershipType.unclaimed with
      | error e => rw [hco] at hok; exact absurd hok (by simp)
      | ok u =>
        rw [hco] at hok
        dsimp only at hok
        simp only [Except.ok.injEq] at hok
        obtain ⟨hf, hes⟩ := get_filtered_entriesL_ok entries remote_branches branch es be hg
        obtain ⟨hbe, hfind, hfilter⟩ :=
          ledger_reappend_frame entries branch be user_email hnd hf
        refine ⟨be.2.1, be.2.2, ?_, ?_, ?_⟩
        · rw [hf]
          obtain ⟨b0, fs0, ow0⟩ := be
          simp only at hbe
          rw [hbe]
        · rw [← hok, hes]
          exact hfind
        · rw [← hok, hes]
          exact hfilter
  · intro res hok
    simp only [checkin_ledger] at hok
    cases hg : get_filtered_entriesL entries remote_branches branch with
    | error e => rw [hg] at hok; exact absurd hok (by simp)
    | ok p =>
      obtain ⟨es, be⟩ := p
      rw [hg] at hok
      dsimp only at hok
      cases hco : check_ownership user_email be.2.2 OwnershipType.claimed with
      | error e => rw [hco] at hok; exact absurd hok (by simp)
      | ok u =>
        rw [hco] at hok
        dsimp only at hok
        simp only [Except.ok.injEq] at hok
        obtain ⟨hf, hes⟩ := get_filtered_entriesL_ok entries remote_branches branch es be hg
        obtain ⟨hbe, hfind, hfilter⟩ :=
          ledger_reappend_frame entries branch be [] hnd hf
        refine ⟨be.2.1, be.2.2, ?_, ?_, ?_⟩
        · rw [hf]
          obtain ⟨b0, fs0, ow0⟩ := be
          simp only at hbe
          rw [hbe]
        · rw [← hok, hes]
          exact hfind
        · rw [← hok, hes]
          exact hfilter

/-- C2 (witness): the theorem applied to the two-entry ledger
`[(b, [a], ""), (c, [d], x)]`: checking out `b` as `u` yields owner `u` on
`b`'s entry and leaves `c`'s entry untouched. -/
theorem checkout_checkin_ledger_frame_witness :
    (([(['b'], [['a']], []), (['c'], [['d']], ['x'])] : List Entry).map
        (fun e => e.1)).Nodup ∧
      checkout_ledger ['u'] [['b'], ['c']]
          [(['b'], [['a']], []), (['c'], [['d']], ['x'])] ['b']
        = Except.ok [(['c'], [['d']], ['x']), (['b'], [['a']], ['u'])] ∧
      ∃ fs ow,
        ([(['b'], [['a']], []), (['c'], [['d']], ['x'])] : List Entry).find?
            (fun e => decide (e.1 = ['b'])) = some (['b'], fs, ow) ∧
          ([(['c'], [['d']], ['x']), (['b'], [['a']], ['u'])] : List Entry).find?
              (fun e => decide (e.1 = ['b'])) = some (['b'], fs, ['u']) ∧
          ([(['c'], [['d']], ['x']), (['b'], [['a']], ['u'])] : List Entry).filter
              (fun e => !(decide (e.1 = ['b'])))
            = ([(['b'], [['a']], []), (['c'], [['d']], ['x'])] : List Entry).filter
              (fun e => !(decide (e.1 = ['b']))) := by
  refine ⟨by decide, rfl, ?_⟩
  exact (checkout_checkin_ledger_frame ['u'] [['b'], ['c']]
      [(['b'], [['a']], []), (['c'], [['d']], ['x'])] ['b'] (by decide)).1
    [(['c'], [['d']], ['x']), (['b'], [['a']], ['u'])] rfl

/-- Splitting a separator-free string yields it whole. -/
theorem splitOnCharAux_no_sep (c : Char) :
    ∀ (p : List Char), c ∉ p → splitOnCharAux c p = (p, []) := by
  intro p
  induction p with
  | nil => intro _; rfl
  | cons x xs ih =>
    intro h
    have hx : ¬(x = c) := fun hh => h (List.mem_cons.mpr (Or.inl hh.symm))
    simp only [splitOnCharAux, ih (fun hh => h (List.mem_cons_of_mem _ hh)), if_neg hx]

/-- Splitting past a separator-free field followed by one separator. -/
theorem splitOnCharAux_append_sep (c : Char) :
    ∀ (p t : List Char), c ∉ p →
      splitOnCharAux c (p ++ c :: t)
        = (p, (splitOnCharAux c t).1 :: (splitOnCharAux c t).2) := by
  intro p
  induction p with
  | nil =>
    intro t _
    simp [splitOnCharAux]
  | cons x xs ih =>
    intro t h
    have hx : ¬(x = c) := fun hh => h (List.mem_cons.mpr (Or.inl hh.symm))
    simp only [List.cons_append, splitOnCharAux, List.append_eq,
      ih t (fun hh => h (List.mem_cons_of_mem _ hh)), if_neg hx]

/-- Python `c.join` followed by `split(c)` is the identity on non-empty lists
of separator-free fields. -/
theorem splitOnChar_joinParts (c : Char) :
    ∀ (parts : List (List Char)), parts ≠ [] → (∀ p ∈ parts, c ∉ p) →
      splitOnChar c (joinParts c parts) = parts := by
  intro parts
  induction parts with
  | nil => intro h _; exact absurd rfl h
  | cons p ps ih =>
    intro _ hall
    cases ps with
    | nil =>
      simp only [joinParts, splitOnChar, splitOnCharAux_no_sep c p (hall p (by simp))]
    | cons q qs =>
      have hp : c ∉ p := hall p (by simp)
      have hrest : splitOnChar c (joinParts c (q :: qs)) = q :: qs :=
        ih (by simp) (fun r hr => hall r (List.mem_cons_of_mem _ hr))
      simp only [splitOnChar] at hrest
      simp only [joinParts, splitOnChar, splitOnCharAux_append_sep c p _ hp]
      rw [hrest]

/-- A character distinct from the separator and absent from every field is
absent from the join. -/
theorem not_mem_joinParts (ch d : Char) (hcd : ch ≠ d) :
    ∀ (parts : List (List Char)), (∀ p ∈ parts, ch ∉ p) →
      ch ∉ joinParts d parts := by
  intro parts
  induction parts with
  | nil => intro _; simp [joinParts]
  | cons p ps ih =>
    intro hall
    cases ps with
    | nil =>
      simpa [joinParts] using hall p (by simp)
    | cons q qs =>
      simp only [joinParts]
      intro hmem
      rcases List.mem_append.mp hmem with h1 | h2
      · exact hall p (by simp) h1
      · rcases List.mem_cons.mp h2 with heq | h3
        · exact hcd heq
        · exact ih (fun r hr => hall r (List.mem_cons_of_mem _ hr)) h3

/-- `dropWhile` does nothing when the head already fails the test. -/
theorem dropWhile_head_ne (c : Char) (s : List Char) (h : s.head? ≠ some c) :
    s.dropWhile (fun x => x == c) = s := by
  cases s with
  | nil => rfl
  | cons x xs =>
    have hx : ¬(x = c) := fun hh => h (by simp [hh])
    simp [List.dropWhile_cons, hx]

/-- Stripping a string that carries exactly one trailing copy of the
stripped character removes exactly it. -/
theorem pyStrip_concat (c : Char) (m : List Char) (h1 : m.head? ≠ some c)
    (h2 : m.reverse.head? ≠ some c) :
    pyStrip c (m ++ [c]) = m := by
  cases m with
  | nil => simp [pyStrip]
  | cons x xs =>
    have hh : ((x :: xs) ++ [c]).head? ≠ some c := by simpa using h1
    unfold pyStrip
    rw [dropWhile_head_ne c _ hh]
    rw [show ((x :: xs) ++ [c]).reverse = c :: (x :: xs).reverse by simp]
    rw [List.dropWhile_cons]
    simp only [beq_self_eq_true, if_true]
    rw [dropWhile_head_ne c _ h2, List.reverse_reverse]

/-- A record is three `;`-joined fields. -/
theorem encodeRecord_eq_joinParts (e : Entry) :
    encodeRecord e = joinParts ';' [e.1, joinParts ',' e.2.1, e.2.2] := by
  simp [encodeRecord, joinParts]

/-- A record always contains a `;`, hence is never empty. -/
theorem encodeRecord_ne_nil (e : Entry) : encodeRecord e ≠ [] := by
  cases he : e.1 with
  | nil => simp [encodeRecord, he]
  | cons x xs => simp [encodeRecord, he]

/-- A record starts with the branch name (or `;`), never with a newline. -/
theorem encodeRecord_head (e : Entry) (h : '\n' ∉ e.1) :
    (encodeRecord e).head? ≠ some '\n' := by
  cases he : e.1 with
  | nil => simp [encodeRecord, he]
  | cons x xs =>
    have hx : ¬(x = '\n') := by
      intro heq
      apply h
      rw [he, heq]
      exact List.mem_cons_self _ _
    simp [encodeRecord, he, hx]

/-- A record ends with the owner (or `;`), never with a newline. -/
theorem encodeRecord_revhead (e : Entry) (h : '\n' ∉ e.2.2) :
    (encodeRecord e).reverse.head? ≠ some '\n' := by
  have hsh : encodeRecord e
      = (e.1 ++ ';' :: joinParts ',' e.2.1) ++ ';' :: e.2.2 := by
    simp [encodeRecord, List.append_assoc]
  rw [hsh, List.reverse_append, List.reverse_cons]
  cases ho : e.2.2.reverse with
  | nil => simp
  | cons y t =>
    have hy : ¬(y = '\n') := by
      intro heq
      apply h
      have hmem : y ∈ e.2.2.reverse := by rw [ho]; exact List.mem_cons_self _ _
      rw [List.mem_reverse] at hmem
      rw [← heq]
      exact hmem
    simp [hy]

/-- A character absent from all three fields and distinct from the
delimiters is absent from the whole record. -/
theorem not_mem_encodeRecord (ch : Char) (e : Entry) (h1 : ch ∉ e.1)
    (h2 : ∀ f ∈ e.2.1, ch ∉ f) (h3 : ch ∉ e.2.2)
    (hs : ch ≠ ';') (hc : ch ≠ ',') :
    ch ∉ encodeRecord e := by
  rw [encodeRecord_eq_joinParts]
  apply not_mem_joinParts ch ';' hs
  intro p hp
  simp only [List.mem_cons, List.mem_singleton, List.not_mem_nil, or_false] at hp
  rcases hp with rfl | rfl | rfl
  · exact h1
  · exact not_mem_joinParts ch ',' hc e.2.1 h2
  · exact h3

/-- The head of a join of records is the head of the first record. -/
theorem joinParts_head (c : Char) (r : List Char) (rs : List (List Char))
    (h : r ≠ []) :
    (joinParts c (r :: rs)).head? = r.head? := by
  cases rs with
  | nil => rfl
  | cons q qs =>
    cases r with
    | nil => exact absurd rfl h
    | cons x xs => simp [joinParts]

/-- The last character of a join of records is the last character of the
last record. -/
theorem joinParts_revhead (c : Char) :
    ∀ (rs : List (List Char)) (r : List Char), r ≠ [] →
      (joinParts c (rs ++ [r])).reverse.head? = r.reverse.head? := by
  intro rs
  induction rs with
  | nil => intro r h; rfl
  | cons a rs' ih =>
    intro r h
    have hne : rs' ++ [r] ≠ [] := by simp
    cases hrs : rs' ++ [r] with
    | nil => exact absurd hrs hne
    | cons b bs =>
      rw [List.cons_append, hrs]
      simp only [joinParts]
      rw [List.reverse_append, List.reverse_cons]
      have hj : (joinParts c (b :: bs)).reverse.head? = r.reverse.head? := by
        rw [← hrs]
        exact ih r h
      cases hx : (joinParts c (b :: bs)).reverse with
      | nil =>
        rw [hx] at hj
        cases hr : r.reverse with
        | nil =>
          exact absurd (by simpa using congrArg List.reverse hr) h
        | cons z zs => rw [hr] at hj; exact absurd hj (by simp)
      | cons z zs =>
        rw [hx] at hj
        simpa using hj

/-- The serialized file is the newline-join of the records followed by one
final newline. -/
theorem encodeEntries_eq (entries : List Entry) (h : entries ≠ []) :
    encodeEntries entries
      = joinParts '\n' (entries.map encodeRecord) ++ ['\n'] := by
  induction entries with
  | nil => exact absurd rfl h
  | cons e rest ih =>
    cases rest with
    | nil => simp [encodeEntries, encodeEntry, joinParts]
    | cons f fs =>
      have ihr := ih (by simp)
      simp only [encodeEntries, List.map_cons, List.flatten_cons] at ihr ⊢
      rw [ihr]
      simp [encodeEntry, joinParts, List.append_assoc]

/-- Running the decoding loop over encoded records recovers the entries,
provided every branch is remote, fields are delimiter-free and folder lists
are non-empty. -/
theorem decodeLoop_encode (remote_branches : List PyStr) :
    ∀ (entries : List Entry) (acc : List Entry),
      (∀ e ∈ entries, e.1 ∈ remote_branches ∧ ';' ∉ e.1 ∧
        e.2.1 ≠ [] ∧ (∀ f ∈ e.2.1, ';' ∉ f ∧ ',' ∉ f) ∧ ';' ∉ e.2.2) →
      decodeLoop remote_branches acc (entries.map encodeRecord)
        = Except.ok (acc ++ entries) := by
  intro entries
  induction entries with
  | nil => intro acc _; simp [decodeLoop]
  | cons e rest ih =>
    intro acc hall
    obtain ⟨hbr, hsb, hfne, hfs, hso⟩ := hall e (by simp)
    have hsplit : splitOnChar ';' (encodeRecord e)
        = [e.1, joinParts ',' e.2.1, e.2.2] := by
      rw [encodeRecord_eq_joinParts]
      apply splitOnChar_joinParts
      · simp
      · intro p hp
        simp only [List.mem_cons, List.mem_singleton, List.not_mem_nil, or_false] at hp
        rcases hp with rfl | rfl | rfl
        · exact hsb
        · exact not_mem_joinParts ';' ',' (by decide) e.2.1 (fun f hf => (hfs f hf).1)
        · exact hso
    have hfsplit : splitOnChar ',' (joinParts ',' e.2.1) = e.2.1 :=
      splitOnChar_joinParts ',' e.2.1 hfne (fun f hf => (hfs f hf).2)
    rw [List.map_cons]
    show (match splitOnChar ';' (encodeRecord e) with
          | [branch, folderstr, owner] =>
            decodeLoop remote_branches
              (acc ++ (if branch ∈ remote_branches
                       then [(branch, splitOnChar ',' folderstr, owner)] else []))
              (rest.map encodeRecord)
          | _ => Except.error Err.valueError)
        = Except.ok (acc ++ e :: rest)
    rw [hsplit]
    dsimp only
    rw [if_pos hbr, hfsplit,
      ih (acc ++ [(e.1, e.2.1, e.2.2)]) (fun x hx => hall x (List.mem_cons_of_mem _ hx))]
    simp [List.append_assoc]

/-- C3 (amended): for every ledger whose branch names and folder names avoid
the delimiter characters, whose owners avoid `;` and newline, whose entries
each carry a non-empty folder list, and whose branches are all present in
the remote branch list, decoding the serialized text produced by encoding
yields exactly the original ledger. -/
theorem decode_encode_roundtrip (remote_branches : List PyStr)
    (entries : List Entry)
    (h : ∀ e ∈ entries, e.1 ∈ remote_branches ∧
      ('\n' ∉ e.1 ∧ ';' ∉ e.1 ∧ ',' ∉ e.1) ∧
      e.2.1 ≠ [] ∧ (∀ f ∈ e.2.1, '\n' ∉ f ∧ ';' ∉ f ∧ ',' ∉ f) ∧
      ('\n' ∉ e.2.2 ∧ ';' ∉ e.2.2)) :
    decodeEntries remote_branches (encodeEntries entries) = Except.ok entries := by
  cases hcs : entries with
  | nil => rfl
  | cons e0 rest =>
    rw [← hcs]
    have hne : entries ≠ [] := by rw [hcs]; simp
    have hrecnl : ∀ r ∈ entries.map encodeRecord, '\n' ∉ r := by
      intro r hr
      obtain ⟨e, he, rfl⟩ := List.mem_map.mp hr
      obtain ⟨_, hb, _, hf, ho⟩ := h e he
      exact not_mem_encodeRecord '\n' e hb.1 (fun f hf2 => (hf f hf2).1) ho.1
        (by decide) (by decide)
    have hmhead : (joinParts '\n' (entries.map encodeRecord)).head? ≠ some '\n' := by
      rw [hcs, List.map_cons,
        joinParts_head '\n' (encodeRecord e0) _ (encodeRecord_ne_nil e0)]
      exact encodeRecord_head e0 ((h e0 (by rw [hcs]; simp)).2.1.1)
    have hmrev : (joinParts '\n' (entries.map encodeRecord)).reverse.head?
        ≠ some '\n' := by
      rcases List.eq_nil_or_concat entries with hnil | ⟨L2, eL, hcat⟩
      · exact absurd hnil hne
      · rw [List.concat_eq_append] at hcat
        rw [hcat, List.map_append, List.map_singleton,
          joinParts_revhead '\n' _ _ (encodeRecord_ne_nil eL)]
        refine encodeRecord_revhead eL ?_
        exact ((h eL (by rw [hcat]; simp)).2.2.2.2).1
    have hstrip : pyStrip '\n' (encodeEntries entries)
        = joinParts '\n' (entries.map encodeRecord) := by
      rw [encodeEntries_eq entries hne]
      exact pyStrip_concat '\n' _ hmhead hmrev
    have hmne : joinParts '\n' (entries.map encodeRecord) ≠ [] := by
      intro hnil
      have hh : (joinParts '\n' (entries.map encodeRecord)).head?
          = (encodeRecord e0).head? := by
        rw [hcs, List.map_cons]
        exact joinParts_head '\n' (encodeRecord e0) _ (encodeRecord_ne_nil e0)
      rw [hnil] at hh
      cases hrec : encodeRecord e0 with
      | nil => exact encodeRecord_ne_nil e0 hrec
      | cons x xs => rw [hrec] at hh; exact Option.noConfusion hh
    have hsplitm : splitOnChar '\n' (joinParts '\n' (entries.map encodeRecord))
        = entries.map encodeRecord := by
      apply splitOnChar_joinParts
      · rw [hcs]; simp
      · exact hrecnl
    simp only [decodeEntries]
    rw [hstrip, if_neg hmne, hsplitm]
    rw [decodeLoop_encode remote_branches entries []
      (fun e he => ⟨(h e he).1, (h e he).2.1.2.1, (h e he).2.2.1,
        fun f hf => ⟨((h e he).2.2.2.1 f hf).2.1, ((h e he).2.2.2.1 f hf).2.2⟩,
        (h e he).2.2.2.2.2⟩)]
    simp

/-- C3 (witness): the round trip evaluated on the one-entry ledger
`[(b, [a], u)]` against the remote list `[b]`. -/
theorem decode_encode_roundtrip_witness :
    decodeEntries [['b']] (encodeEntries [(['b'], [['a']], ['u'])])
      = Except.ok [(['b'], [['a']], ['u'])] :=
  decode_encode_roundtrip [['b']] [(['b'], [['a']], ['u'])] (by decide)

/-- A successful decoding loop parses every record and keeps, in order,
exactly those whose branch is in the remote list. -/
theorem decodeLoop_ok_spec (remote_branches : List PyStr) :
    ∀ (rs : List PyStr) (acc es : List Entry),
      decodeLoop remote_branches acc rs = Except.ok es →
      ∃ all, parse_records rs = Except.ok all ∧
        es = acc ++ all.filter (fun e => decide (e.1 ∈ remote_branches)) := by
  intro rs
  induction rs with
  | nil =>
    intro acc es h
    simp only [decodeLoop, Except.ok.injEq] at h
    exact ⟨[], rfl, by simp [← h]⟩
  | cons r rs' ih =>
    intro acc es h
    simp only [decodeLoop] at h
    split at h
    · next b f o heq =>
      obtain ⟨all', hall', hes⟩ := ih _ es h
      refine ⟨(b, splitOnChar ',' f, o) :: all', ?_, ?_⟩
      · simp only [parse_records, parse_record, heq, hall']
      · rw [hes]
        by_cases hbr : b ∈ remote_branches
        · simp [hbr, List.filter_cons, List.append_assoc]
        · simp [hbr, List.filter_cons]
    · exact absurd h (by simp)

/-- A successful `decodeEntries` returns only remote-branch entries, and for
non-empty content it is exactly the in-order filter of the parsed records. -/
theorem decodeEntries_ok_spec (remote_branches : List PyStr) (s : PyStr)
    (es : List Entry) (h : decodeEntries remote_branches s = Except.ok es) :
    (∀ e ∈ es, e.1 ∈ remote_branches) ∧
      (pyStrip '\n' s ≠ [] →
        ∃ all, parse_records (splitOnChar '\n' (pyStrip '\n' s)) = Except.ok all ∧
          es = all.filter (fun e => decide (e.1 ∈ remote_branches))) := by
  by_cases hstrip : pyStrip '\n' s = []
  · simp only [decodeEntries, hstrip, if_pos, Except.ok.injEq] at h
    constructor
    · intro e he
      rw [← h] at he
      exact absurd he (by simp)
    · intro hcontra
      exact absurd hstrip hcontra
  · simp only [decodeEntries, if_neg hstrip] at h
    obtain ⟨all, hall, hes⟩ := decodeLoop_ok_spec remote_branches _ [] es h
    constructor
    · intro e he
      rw [hes] at he
      simp only [List.nil_append] at he
      have := List.of_mem_filter he
      simpa using this
    · intro _
      exact ⟨all, hall, by simpa using hes⟩

/-- C8: every entry returned by the ledger read (and hence by `status()`)
has a branch name present in the remote branch list: records whose branch
is absent from the remote list are dropped, and all records whose branch is
present are kept in file order. -/
theorem ledger_read_filters_remote (remote_branches : List PyStr) (s : PyStr)
    (es : List Entry) (env : GitEnv) (es2 : List Entry) :
    (decodeEntries remote_branches s = Except.ok es →
      (∀ e ∈ es, e.1 ∈ remote_branches) ∧
        (pyStrip '\n' s ≠ [] →
          ∃ all, parse_records (splitOnChar '\n' (pyStrip '\n' s)) = Except.ok all ∧
            es = all.filter (fun e => decide (e.1 ∈ remote_branches)))) ∧
      ((branch_status env).2 = Except.ok es2 → ∀ e ∈ es2, e.1 ∈ env.remoteBranches) := by
  constructor
  · exact decodeEntries_ok_spec remote_branches s es
  · intro h
    dsimp only [branch_status] at h
    simp only [get_entries] at h
    by_cases hsb : env.statusBranch ∈ env.remoteBranches
    · rw [if_pos hsb] at h
      dsimp only at h
      exact (decodeEntries_ok_spec env.remoteBranches env.statusContent es2 h).1
    · rw [if_neg hsb] at h
      cases hcb : create_status_branch env with
      | mk ceffs cr =>
        rw [hcb] at h
        cases cr with
        | error e2 =>
          dsimp only at h
          exact absurd h (by simp)
        | ok u =>
          dsimp only at h
          have hdec : decodeEntries env.remoteBranches [] = Except.ok [] := rfl
          rw [hdec] at h
          simp only [Except.ok.injEq] at h
          intro e he
          rw [← h] at he
          exact absurd he (by simp)

/-- C8 (witness): the theorem applied to a two-record file against a remote
list containing only one of the branches: only that branch's record is
kept, and its branch is remote. -/
theorem ledger_read_filters_remote_witness :
    (['b'] : PyStr) ∈ [['s'], ['b']] :=
  ((ledger_read_filters_remote [['s'], ['b']]
      ['b', ';', 'x', ';', 'u', '\n', 'c', ';', 'y', ';', 'v', '\n']
      [(['b'], [['x']], ['u'])] dupEnv []).1 (by rfl)).1
    (['b'], [['x']], ['u']) (by decide)

/-- A record list containing a record with a field count other than three
makes the decoding loop fail with the untyped `ValueError`. -/
theorem decodeLoop_malformed (remote_branches : List PyStr) :
    ∀ (rs : List PyStr) (acc : List Entry),
      (∃ r ∈ rs, (splitOnChar ';' r).length ≠ 3) →
      decodeLoop remote_branches acc rs = Except.error Err.valueError := by
  intro rs
  induction rs with
  | nil =>
    intro acc h
    obtain ⟨r, hr, _⟩ := h
    exact absurd hr (by simp)
  | cons r rs' ih =>
    intro acc h
    simp only [decodeLoop]
    split
    · next b f o heq =>
      obtain ⟨r0, hr0, hlen⟩ := h
      rcases List.mem_cons.mp hr0 with rfl | hr0'
      · rw [heq] at hlen
        simp at hlen
      · exact ih _ ⟨r0, hr0', hlen⟩
    · rfl

/-- C9 (amended): decoding a non-empty status file containing a record with
a field count other than 3 fails, but the failure is the untyped Python
`ValueError` from tuple unpacking, which the top-level boundary — catching
only `ProgramError` — does not convert: it escapes as an uncaught exception
rather than producing the one-line message and clean non-zero exit. -/
theorem malformed_record_untyped_failure (remote_branches : List PyStr) (s : PyStr)
    (hne : pyStrip '\n' s ≠ [])
    (hmal : ∃ r ∈ splitOnChar '\n' (pyStrip '\n' s),
      (splitOnChar ';' r).length ≠ 3) :
    decodeEntries remote_branches s = Except.error Err.valueError ∧
      run_operation_log_result (decodeEntries remote_branches s)
        = Outcome.uncaughtException := by
  have hdec : decodeEntries remote_branches s = Except.error Err.valueError := by
    simp only [decodeEntries]
    rw [if_neg hne]
    exact decodeLoop_malformed remote_branches _ [] hmal
  refine ⟨hdec, ?_⟩
  rw [hdec]
  rfl

/-- C9 (witness): the amended theorem applied to the one-record file
`b;x` (two fields). -/
theorem malformed_record_untyped_failure_witness :
    decodeEntries [['x']] ['b', ';', 'x'] = Except.error Err.valueError ∧
      run_operation_log_result (decodeEntries [['x']] ['b', ';', 'x'])
        = Outcome.uncaughtException :=
  malformed_record_untyped_failure [['x']] ['b', ';', 'x'] (by decide) (by decide)

/-- The bootstrap emits no ledger write (its only file write is the empty
status file creation, a distinct effect). -/
theorem create_status_branch_no_write (env : GitEnv) :
    ∀ es, Effect.writeStatusFile es ∉ (create_status_branch env).1 := by
  intro es
  simp only [create_status_branch]
  by_cases hl : ['s', 't', 'a', 't', 'u', 's'] ∈ env.localBranches
  · rw [if_pos hl]
    simp
  · rw [if_neg hl]
    simp only [saveBranchScope]
    by_cases hs : env.stashed
    · simp [hs]
    · simp [hs]

/-- Reading the ledger emits no ledger write. -/
theorem get_entries_no_write (env : GitEnv) (remote_branches : List PyStr)
    (effs : List Effect) (r : Except Err (List Entry))
    (h : get_entries env remote_branches = (effs, r)) :
    ∀ es, Effect.writeStatusFile es ∉ effs := by
  intro es
  simp only [get_entries] at h
  by_cases hsb : env.statusBranch ∈ remote_branches
  · rw [if_pos hsb] at h
    obtain ⟨h1, _⟩ := Prod.mk.injEq .. ▸ h
    rw [← h1]
    simp
  · rw [if_neg hsb] at h
    cases hcb : create_status_branch env with
    | mk ceffs cr =>
      rw [hcb] at h
      cases cr with
      | error e2 =>
        dsimp only at h
        obtain ⟨h1, _⟩ := Prod.mk.injEq .. ▸ h
        rw [← h1]
        have := create_status_branch_no_write env es
        rw [hcb] at this
        exact this
      | ok u =>
        dsimp only at h
        obtain ⟨h1, _⟩ := Prod.mk.injEq .. ▸ h
        rw [← h1]
        intro hmem
        rcases List.mem_append.mp hmem with hm1 | hm2
        · have := create_status_branch_no_write env es
          rw [hcb] at this
          exact this hm1
        · exact absurd hm2 (by simp)

/-- C4: `create_branch` with an empty folder list always fails with
`UnspecifiedFolders`, and with any folder name equal to `.` or containing
`/`, `\`, `,` or `;` always fails with `InvalidFolder`; both failures occur
before any remote interaction or ledger mutation (the emitted effect trace
is empty); after these checks — given that the ledger read succeeds — a
branch already in the remote branch list fails with `DuplicateRemote`, and
one not remote but already in the local branch list fails with
`DuplicateLocal`, in that order, with no ledger write emitted in either
case. -/
theorem create_branch_validation_order (env : GitEnv) (branch : PyStr)
    (folders : List PyStr) :
    (folders = [] →
        create_branch env branch folders = ([], Except.error Err.unspecifiedFolders)) ∧
      ((∃ f ∈ folders, invalid_folder f = true) →
        create_branch env branch folders = ([], Except.error Err.invalidFolder)) ∧
      (∀ effs entries, folders ≠ [] → (∀ f ∈ folders, invalid_folder f = false) →
        get_entries env env.remoteBranches = (effs, Except.ok entries) →
        branch ∈ env.remoteBranches →
        (create_branch env branch folders).2 = Except.error Err.duplicateRemoteBranch ∧
          ∀ es, Effect.writeStatusFile es ∉ (create_branch env branch folders).1) ∧
      (∀ effs entries, folders ≠ [] → (∀ f ∈ folders, invalid_folder f = false) →
        get_entries env env.remoteBranches = (effs, Except.ok entries) →
        branch ∉ env.remoteBranches → branch ∈ env.localBranches →
        (create_branch env branch folders).2 = Except.error Err.duplicateLocalBranch ∧
          ∀ es, Effect.writeStatusFile es ∉ (create_branch env branch folders).1) := by
  refine ⟨?_, ?_, ?_, ?_⟩
  · intro h
    subst h
    simp [create_branch]
  · intro h
    obtain ⟨f, hf, hinv⟩ := h
    have hlen : ¬(folders.length = 0) := by
      cases folders with
      | nil => exact absurd hf (by simp)
      | cons a l => simp
    have hany : folders.any invalid_folder = true := List.any_eq_true.mpr ⟨f, hf, hinv⟩
    simp only [create_branch, if_neg hlen]
    rw [if_pos (by rw [hany])]
  · intro effs entries hnil hval hg hrem
    have hlen : ¬(folders.length = 0) := by
      cases folders with
      | nil => exact absurd rfl hnil
      | cons a l => simp
    have hany : ¬(folders.any invalid_folder = true) := by
      rw [List.any_eq_true]
      rintro ⟨f, hf, hinv⟩
      rw [hval f hf] at hinv
      exact Bool.false_ne_true hinv
    have hcb : create_branch env branch folders
        = (Effect.fetchRemoteBranches :: effs,
           Except.error Err.duplicateRemoteBranch) := by
      simp only [create_branch, if_neg hlen, if_neg hany]
      rw [hg]
      dsimp only
      rw [if_pos hrem]
    rw [hcb]
    exact ⟨rfl, fun es hmem => by
      rcases List.mem_cons.mp hmem with heq | hmem'
      · exact Effect.noConfusion heq
      · exact get_entries_no_write env env.remoteBranches effs _ hg es hmem'⟩
  · intro effs entries hnil hval hg hrem hloc
    have hlen : ¬(folders.length = 0) := by
      cases folders with
      | nil => exact absurd rfl hnil
      | cons a l => simp
    have hany : ¬(folders.any invalid_folder = true) := by
      rw [List.any_eq_true]
      rintro ⟨f, hf, hinv⟩
      rw [hval f hf] at hinv
      exact Bool.false_ne_true hinv
    have hcb : create_branch env branch folders
        = (Effect.fetchRemoteBranches :: effs,
           Except.error Err.duplicateLocalBranch) := by
      simp only [create_branch, if_neg hlen, if_neg hany]
      rw [hg]
      dsimp only
      rw [if_neg hrem, if_pos hloc]
    rw [hcb]
    exact ⟨rfl, fun es hmem => by
      rcases List.mem_cons.mp hmem with heq | hmem'
      · exact Effect.noConfusion heq
      · exact get_entries_no_write env env.remoteBranches effs _ hg es hmem'⟩

/-- C4 (witness): the theorem applied in a clean environment to a branch
that already exists remotely: creation fails with `DuplicateRemote`. -/
theorem create_branch_validation_order_witness :
    (create_branch dupEnv ['s', 't'] [['a']]).2
      = Except.error Err.duplicateRemoteBranch :=
  ((create_branch_validation_order dupEnv ['s', 't'] [['a']]).2.2.1
    [Effect.fetchStatusFile] [] (by decide) (by decide) rfl (by decide)).1

end Kigit
